import Mathlib

set_option allowUnsafeReducibility true
attribute [local semireducible] Rat.add Rat.sub Rat.mul Rat.inv

/-!
# Verification of the Thrombus-computational optimization pipeline

Shallow embedding of the core of the repository:

* `parsing.py` — the error metric `nrmse`, the resampler
  `resample_to_n_points`, and the step-wise log extractor
  `parse_febio_log_by_step`;
* `run_febio.py` / `objective.py` — the solver-invocation environment and
  the error-handling skeleton of `objective_coeffs`;
* `optimize_mult.py` — coefficient encoding (`clamp`, `x_to_coeffs`,
  `coeffs_to_key`) and the caching / stopping wrapper `Runner.__call__`.

Numeric values are modelled over `ℚ`.  The only transcendental pieces of the
source are `sqrt` inside `nrmse` (we model the square of the metric, which
determines it: real `sqrt` is strictly monotone on nonnegatives) and
`log10` inside `coeffs_to_key` (positive coefficients are represented in the
log10 domain by the constructor `CVal.pow10`, exactly as the optimizer
produces them via `10.0 ** log10_c`).
-/

namespace Thrombus

/-- Decidable equality for `Except` results (needed to evaluate the embedded
fallible functions on concrete inputs). -/
instance {ε α : Type} [DecidableEq ε] [DecidableEq α] : DecidableEq (Except ε α) := fun
  | .error a, .error b =>
    decidable_of_iff (a = b) (by constructor <;> (intro h; cases h; rfl))
  | .error _, .ok _ => .isFalse (by intro h; cases h)
  | .ok _, .error _ => .isFalse (by intro h; cases h)
  | .ok a, .ok b =>
    decidable_of_iff (a = b) (by constructor <;> (intro h; cases h; rfl))

/-! ## parsing.py : nrmse -/

/-- Peak absolute magnitude `np.max(np.abs(exp))`.  For a nonempty list this
fold with base `0` agrees with `np.max` because absolute values are
nonnegative (numpy raises on the empty array, which never reaches the
division). -/
def peakAbs (l : List ℚ) : ℚ := (l.map abs).foldr max 0

/-- `np.mean` of a list of rationals. -/
def meanQ (l : List ℚ) : ℚ := l.sum / l.length

/-- Square of `parsing.nrmse sim exp eps`:
`rmse = sqrt(mean((sim - exp)**2))`, `denom = max(np.max(np.abs(exp)), eps)`,
result `rmse / denom`.  We embed the square `mean((sim-exp)**2) / denom**2`,
which is rational-valued and determines the metric (square root is strictly
monotone on nonnegative reals). -/
def nrmseSq (sim exp : List ℚ) (eps : ℚ) : ℚ :=
  meanQ ((List.zipWith (fun a b => (a - b) ^ 2) sim exp)) / (max (peakAbs exp) eps) ^ 2

/-- The default `eps=1e-12` of `parsing.nrmse`. -/
def epsDefault : ℚ := 1 / 10 ^ 12

/-! ## parsing.py : resample_to_n_points -/

/-- `np.interp` specialised to the evenly spaced grid
`x_old = np.linspace(0, 1, m)` over the values `y`, evaluated at progress
`t ∈ [0, 1]`: position `p = t * (m - 1)`, bracketing segment
`j = min ⌊p⌋ (m - 2)`, then linear interpolation between `y[j]` and
`y[j+1]`. -/
def interpProgress (y : List ℚ) (t : ℚ) : ℚ :=
  let m := y.length
  let p := t * ((m : ℚ) - 1)
  let j := min (Int.toNat ⌊p⌋) (m - 2)
  y.getD j 0 + (p - (j : ℚ)) * (y.getD (j + 1) 0 - y.getD j 0)

/-- `parsing.resample_to_n_points`: check `n < 2`, then `m < 2`; otherwise
return the `n` points `(k+1, interp at progress k/(n-1))` for `k = 0..n-1`
(`x_new = np.linspace(0, 1, n)`, fresh step index `1..n`). -/
def resample_to_n_points (y : List ℚ) (n : ℕ) : Except String (List (ℕ × ℚ)) :=
  if n < 2 then .error "n must be >= 2"
  else if y.length < 2 then .error "Need at least 2 points to resample"
  else .ok ((List.range n).map
    (fun k => (k + 1, interpProgress y ((k : ℚ) / ((n : ℚ) - 1)))))

/-! ## parsing.py : parse_febio_log_by_step -/

/-- One physical line of a FEBio logfile, abstracted to the four branches the
source takes per line: a `*Step = N` header carrying at least one number
(the last number is the step), another `*`-header (`*Time`, `*Data`, or a
`*Step` line without a number — none of them changes the state), a data row
whose first two numbers are `id` and `value`, or any other line (fewer than
two numbers). -/
inductive LogLine where
  | stepHeader (n : ℤ)
  | starOther
  | numRow (id : ℤ) (v : ℚ)
  | junk
deriving DecidableEq

/-- Whether a row id survives the `ids_keep` filter
(`ids_keep is None or _id in ids_keep`). -/
def keepOk (keep : Option (List ℤ)) (id : ℤ) : Bool :=
  match keep with
  | none => true
  | some l => l.contains id

/-- `step_values.setdefault(k, [])` on the insertion-ordered dict, modelled as
an association list with unique keys. -/
def setdefault (d : List (ℤ × List ℚ)) (k : ℤ) : List (ℤ × List ℚ) :=
  if (d.find? (fun e => e.1 = k)).isSome then d else d ++ [(k, [])]

/-- `step_values[k].append(v)`. -/
def appendVal (d : List (ℤ × List ℚ)) (k : ℤ) (v : ℚ) : List (ℤ × List ℚ) :=
  d.map (fun e => if e.1 = k then (e.1, e.2 ++ [v]) else e)

/-- The values recorded for step `k` (empty when `k` has no dict entry). -/
def lookupVals (d : List (ℤ × List ℚ)) (k : ℤ) : List ℚ :=
  ((d.find? (fun e => e.1 = k)).map (fun e => e.2)).getD []

/-- `step_values.keys()` in insertion order. -/
def keysOf (d : List (ℤ × List ℚ)) : List ℤ := d.map (fun e => e.1)

/-- Whether step `k` has a dict entry. -/
def hasStep (d : List (ℤ × List ℚ)) (k : ℤ) : Bool :=
  (d.find? (fun e => e.1 = k)).isSome

/-- The line loop of `parse_febio_log_by_step`: state is
`(current_step, step_values)`. -/
def scanLines (keep : Option (List ℤ)) :
    List LogLine → Option ℤ → List (ℤ × List ℚ) → Option ℤ × List (ℤ × List ℚ)
  | [], cur, d => (cur, d)
  | .stepHeader n :: rest, _, d => scanLines keep rest (some n) (setdefault d n)
  | .starOther :: rest, cur, d => scanLines keep rest cur d
  | .junk :: rest, cur, d => scanLines keep rest cur d
  | .numRow id v :: rest, cur, d =>
    match cur with
    | none => scanLines keep rest none d
    | some s =>
      if keepOk keep id then scanLines keep rest (some s) (appendVal d s v)
      else scanLines keep rest (some s) d

/-- Specification-side projection: the kept readings attributed to step `s`
(each data row counts for the most recent preceding `*Step` header),
starting from current step `cur`. -/
def keptRowsFrom (keep : Option (List ℤ)) (cur : Option ℤ) (s : ℤ) :
    List LogLine → List ℚ
  | [] => []
  | .stepHeader n :: rest => keptRowsFrom keep (some n) s rest
  | .starOther :: rest => keptRowsFrom keep cur s rest
  | .junk :: rest => keptRowsFrom keep cur s rest
  | .numRow id v :: rest =>
    match cur with
    | none => keptRowsFrom keep none s rest
    | some t =>
      if t = s ∧ keepOk keep id then v :: keptRowsFrom keep (some t) s rest
      else keptRowsFrom keep (some t) s rest

/-- The kept readings of step `s` in a whole log. -/
def keptRows (keep : Option (List ℤ)) (s : ℤ) (lines : List LogLine) : List ℚ :=
  keptRowsFrom keep none s lines

/-- Insert into an ascending list (one step of Python's `sorted`). -/
def insertSorted (a : ℤ) : List ℤ → List ℤ
  | [] => [a]
  | b :: rest => if a ≤ b then a :: b :: rest else b :: insertSorted a rest

/-- `sorted(step_values.keys())`. -/
def sortInts : List ℤ → List ℤ
  | [] => []
  | a :: rest => insertSorted a (sortInts rest)

/-- Failure modes of `parse_febio_log_by_step`, distinguished by the spec's
taxonomy: `invalidAgg` is the `ValueError("agg must be 'sum' or 'mean'")`
configuration error, `noData` is
`ValueError("No data parsed for the selected ids ...")`. -/
inductive ParseErr where
  | invalidAgg
  | noData
deriving DecidableEq

/-- The output loop of `parse_febio_log_by_step`: for each step in sorted
order, `none` (numpy NaN, dropped later) when no kept reading exists,
otherwise the sum or the mean, and the `ValueError` on any other `agg`. -/
def buildOut (agg : String) (d : List (ℤ × List ℚ)) :
    List ℤ → Except ParseErr (List (ℤ × Option ℚ))
  | [] => .ok []
  | st :: rest =>
    let vals := lookupVals d st
    if vals.length = 0 then
      (buildOut agg d rest).map (fun out => (st, none) :: out)
    else if agg = "sum" then
      (buildOut agg d rest).map (fun out => (st, some vals.sum) :: out)
    else if agg = "mean" then
      (buildOut agg d rest).map (fun out => (st, some (meanQ vals)) :: out)
    else .error .invalidAgg

/-- `parse_febio_log_by_step`: scan the lines, sort the step keys, aggregate,
drop the NaN rows (`df.dropna()`), and fail when nothing remains. -/
def parse_febio_log_by_step (lines : List LogLine) (keep : Option (List ℤ))
    (agg : String) : Except ParseErr (List (ℤ × ℚ)) :=
  let d := (scanLines keep lines none []).2
  let steps := sortInts (keysOf d)
  match buildOut agg d steps with
  | .error e => .error e
  | .ok out =>
    let df := out.filterMap (fun p => p.2.map (fun v => (p.1, v)))
    if df.isEmpty then .error .noData else .ok df

/-- The aggregation a valid mode denotes (`sum` or `mean`). -/
def aggValue (agg : String) (l : List ℚ) : ℚ :=
  if agg = "sum" then l.sum else meanQ l

/-! ## run_febio.py / objective.py : solver invocation and error handling -/

/-- `run_febio` builds the child environment with
`env["OMP_NUM_THREADS"] = str(threads)`: the OMP thread count of the launched
process is exactly the `threads` argument. -/
def run_febio_omp_threads (threads : ℕ) : ℕ := threads

/-- The `threads` value `objective_coeffs` actually passes to `run_febio`:
the source reads `run_febio(feb_file, workdir=run_dir, timeout=timeout,
threads=6)`, ignoring its own `threads` parameter. -/
def objective_coeffs_solver_threads (_threads : ℕ) : ℕ := 6

/-- OMP thread count applied to the solver process when the caller declares
`threads` to `objective_coeffs`. -/
def applied_omp_threads (declared : ℕ) : ℕ :=
  run_febio_omp_threads (objective_coeffs_solver_threads declared)

/-- Outcome of the `run_febio` call inside `objective_coeffs`:
`subprocess.TimeoutExpired`, any other launch/run exception, or a completed
process with a return code. -/
inductive SolverOutcome where
  | timeout
  | launchError
  | finished (returncode : ℤ)
deriving DecidableEq

/-- One abstract run of the `objective_coeffs` pipeline: what each stage
would do.  `injection` is `some msg` when `write_coeffs` or
`update_log_data_file` raises; `analysis` is the combined
parse / resample / nrmse stage, returning the error value on success. -/
structure PipelineEnv where
  injection : Option String
  solver : SolverOutcome
  reactionFileExists : Bool
  analysis : Except String ℚ

/-- The penalty score `1e9`. -/
def PENALTY : ℚ := 10 ^ 9

/-- Error-handling skeleton of `objective_coeffs` (with `debug=False`):
first component is what the caller sees (`.error` = a Python exception
propagates), second records that the `finally` cleanup
(`shutil.rmtree(run_dir, ignore_errors=True)`) ran.  Only the solver call is
guarded by `except`; injection and analysis exceptions propagate. -/
def objective_coeffs (env : PipelineEnv) : Except String ℚ × Bool :=
  match env.injection with
  | some e => (.error e, true)
  | none =>
    match env.solver with
    | .timeout => (.ok PENALTY, true)
    | .launchError => (.ok PENALTY, true)
    | .finished rc =>
      if rc ≠ 0 then (.ok PENALTY, true)
      else if !env.reactionFileExists then (.ok PENALTY, true)
      else
        match env.analysis with
        | .error e => (.error e, true)
        | .ok v => (.ok v, true)

/-! ## optimize_mult.py : coefficient encoding -/

/-- `clamp(v, lo, hi) = max(lo, min(hi, v))`. -/
def clamp (v lo hi : ℚ) : ℚ := max lo (min hi v)

/-- `LOG10_C_BOUNDS = (-12.0, 0.0)`. -/
def LOG10_C_LO : ℚ := -12
/-- Upper log10(c) bound. -/
def LOG10_C_HI : ℚ := 0
/-- `M_BOUNDS = (0.1, 25.0)`, lower bound. -/
def M_LO : ℚ := 1 / 10
/-- `M_BOUNDS` upper bound. -/
def M_HI : ℚ := 25

/-- Python `round` to an integer: round-half-to-even. -/
def roundHalfEven (x : ℚ) : ℤ :=
  let n := ⌊x⌋
  let r := x - n
  if r < 1 / 2 then n
  else if 1 / 2 < r then n + 1
  else if n % 2 = 0 then n else n + 1

/-- `roundf(x) = round(float(x), ROUND_DIGITS)` with `ROUND_DIGITS = 4`. -/
def roundf (x : ℚ) : ℚ := (roundHalfEven (x * 10 ^ 4) : ℚ) / 10 ^ 4

/-- Exact model of a float coefficient value `c`: either `0.0` (the
`coeffs.get(..., 0.0)` default / a zero fixed value) or a positive value
given in the log10 domain, `pow10 ℓ = 10.0 ** ℓ` — exactly how
`x_to_coeffs` produces every optimized `c`. -/
inductive CVal where
  | zero
  | pow10 (ℓ : ℚ)
deriving DecidableEq

/-- The key component of a `c` value:
`np.log10(ci)` when `ci > 0`, else the sentinel `-999.0`. -/
def log10OrSentinel : CVal → ℚ
  | .zero => -999
  | .pow10 l => l

/-- A full coefficient mapping: for pair index `i` the dict entries
`c{i}`, `m{i}`, merged into one record per pair (the source always writes
both together). -/
abbrev Coeffs : Type := List (ℕ × CVal × ℚ)

/-- Dict lookup of pair `i` (last write wins, like a Python dict). -/
def lookupPair (cs : Coeffs) (i : ℕ) : Option (CVal × ℚ) :=
  (cs.reverse.find? (fun e => e.1 = i)).map (fun e => e.2)

/-- `x_to_coeffs` on the optimized part: consume `x` two entries at a time
(`[log10(c_i), m_i, ...]` aligned with `opt_pairs`), clamping into
`LOG10_C_BOUNDS` and `M_BOUNDS`, and store `c_i = 10.0 ** log10_c`. -/
def buildOptCoeffs : List ℕ → List ℚ → Coeffs
  | i :: is, a :: b :: rest =>
    (i, CVal.pow10 (clamp a LOG10_C_LO LOG10_C_HI), clamp b M_LO M_HI) ::
      buildOptCoeffs is rest
  | _, _ => []

/-- `x_to_coeffs(x, opt_pairs)`: fixed pairs first, then the optimized pairs
decoded from the vector `x`. -/
def x_to_coeffs (fixedPairs : Coeffs) (optPairs : List ℕ) (x : List ℚ) : Coeffs :=
  fixedPairs ++ buildOptCoeffs optPairs x

/-- `coeffs_to_key(coeffs)`: for `i = 1..N_ACTIVE_PAIRS`, the rounded log10
of `c_i` (sentinel `-999.0` when `c_i` is absent or nonpositive) followed by
the rounded `m_i` (default `0.0`). -/
def coeffs_to_key (nPairs : ℕ) (cs : Coeffs) : List ℚ :=
  (List.range' 1 nPairs).flatMap (fun i =>
    match lookupPair cs i with
    | some (c, m) => [roundf (log10OrSentinel c), roundf m]
    | none => [roundf (log10OrSentinel .zero), roundf 0])

/-! ## optimize_mult.py : the Runner cache / stopping wrapper -/

/-- A rounded cache key. -/
abbrev CacheKey : Type := List ℚ

/-- Dict lookup in a score table. -/
def lookupKey (l : List (CacheKey × ℚ)) (k : CacheKey) : Option ℚ :=
  (l.find? (fun e => e.1 = k)).map (fun e => e.2)

/-- Dict assignment `tbl[k] = v` (update in place, else append). -/
def insertKey (l : List (CacheKey × ℚ)) (k : CacheKey) (v : ℚ) :
    List (CacheKey × ℚ) :=
  if (l.find? (fun e => e.1 = k)).isSome then
    l.map (fun e => if e.1 = k then (k, v) else e)
  else l ++ [(k, v)]

/-- The configuration and stubs a `Runner` closes over: `N_ACTIVE_PAIRS`,
`MAX_EVALS`, `TARGET_ERR`, `FIXED_PAIRS`, the optimized pair indices, and the
objective (`objective_coeffs` in production, a stub in the scenarios). -/
structure OptSetup where
  nPairs : ℕ
  maxEvals : ℕ
  targetErr : ℚ
  fixedPairs : Coeffs
  optPairs : List ℕ
  obj : Coeffs → ℚ

/-- The repository's configuration: `N_ACTIVE_PAIRS = 2`, `MAX_EVALS = 15`,
`TARGET_ERR = 5.0`, no fixed pairs, optimizing pairs 1 and 2. -/
def defaultSetup (obj : Coeffs → ℚ) : OptSetup :=
  { nPairs := 2, maxEvals := 15, targetErr := 5, fixedPairs := [],
    optPairs := [1, 2], obj := obj }

/-- Mutable state of a `Runner`. `bestErr = none` is `float("inf")`. -/
structure RunnerState where
  cache : List (CacheKey × ℚ)
  logged : List (CacheKey × ℚ)
  evalCount : ℕ
  bestErr : Option ℚ
  bestCoeffs : Option Coeffs
deriving DecidableEq

/-- Fresh `Runner(opt_pairs, logged)` state. -/
def initState (logged : List (CacheKey × ℚ)) : RunnerState :=
  { cache := [], logged := logged, evalCount := 0, bestErr := none,
    bestCoeffs := none }

/-- `err < self.best_err` (with `best_err` initially infinite). -/
def betterThan (err : ℚ) : Option ℚ → Bool
  | none => true
  | some b => err < b

/-- Result of `Runner.__call__`: a returned score, or the `StopIteration`
stop signal. -/
inductive CallResult where
  | ret (score : ℚ)
  | stop
deriving DecidableEq

/-- The coefficient mapping of an optimizer vector under a setup. -/
def coeffsOf (su : OptSetup) (x : List ℚ) : Coeffs :=
  x_to_coeffs su.fixedPairs su.optPairs x

/-- The cache key of an optimizer vector under a setup. -/
def keyOf (su : OptSetup) (x : List ℚ) : CacheKey :=
  coeffs_to_key su.nPairs (coeffsOf su x)

/-- `Runner.__call__(x)`: in-run cache, then cross-run log, then a real
evaluation — incrementing `eval_count` first, recording the score in the log
and the cache, updating the best-so-far, and raising `StopIteration` when
the score reaches `TARGET_ERR` or the count reaches `MAX_EVALS`. -/
def runnerCall (su : OptSetup) (s : RunnerState) (x : List ℚ) :
    CallResult × RunnerState :=
  let coeffs := coeffsOf su x
  let key := coeffs_to_key su.nPairs coeffs
  match lookupKey s.cache key with
  | some v => (.ret v, s)
  | none =>
    match lookupKey s.logged key with
    | some v => (.ret v, { s with cache := insertKey s.cache key v })
    | none =>
      let ec := s.evalCount + 1
      let err := su.obj coeffs
      let s1 : RunnerState :=
        { s with evalCount := ec,
                 logged := insertKey s.logged key err,
                 cache := insertKey s.cache key err }
      let s2 :=
        if betterThan err s.bestErr then
          { s1 with bestErr := some err, bestCoeffs := some coeffs }
        else s1
      if err ≤ su.targetErr then (.stop, s2)
      else if su.maxEvals ≤ ec then (.stop, s2)
      else (.ret err, s2)

/-- Drive a sequence of optimizer vectors through `Runner.__call__` until the
stop signal: returns the final state and whether the stop condition fired. -/
def runCalls (su : OptSetup) : RunnerState → List (List ℚ) → RunnerState × Bool
  | s, [] => (s, false)
  | s, x :: rest =>
    match runnerCall su s x with
    | (.stop, s2) => (s2, true)
    | (.ret _, s2) => runCalls su s2 rest

/-!
## Theorems

General lemmas about the embedded functions, followed by one theorem per
verified claim (with its witness or counterexample).
-/

/-- The squared deviations of a list against itself sum to zero. -/
theorem zipWith_sq_self_sum (xs : List ℚ) :
    (List.zipWith (fun a b => (a - b) ^ 2) xs xs).sum = 0 := by
  induction xs with
  | nil => simp
  | cons a t ih => simp [ih]

/-- Scaling both lists by `k` scales each squared deviation by `k ^ 2`. -/
theorem zipWith_sq_map_mul (k : ℚ) (sim exp : List ℚ) :
    List.zipWith (fun a b => (a - b) ^ 2)
        (sim.map (fun v => k * v)) (exp.map (fun v => k * v)) =
      (List.zipWith (fun a b => (a - b) ^ 2) sim exp).map (fun v => k ^ 2 * v) := by
  induction sim generalizing exp with
  | nil => simp
  | cons a t ih =>
    cases exp with
    | nil => simp
    | cons b u =>
      simp only [List.map_cons, List.zipWith_cons_cons, ih, List.cons.injEq, and_true]
      ring

/-- The mean scales linearly. -/
theorem meanQ_map_mul (c : ℚ) (l : List ℚ) :
    meanQ (l.map (fun v => c * v)) = c * meanQ l := by
  unfold meanQ
  rw [List.length_map]
  have hs : (l.map (fun v => c * v)).sum = c * l.sum := by
    induction l with
    | nil => simp
    | cons a t ih => simp [ih, mul_add]
  rw [hs, mul_div_assoc]

/-- The peak magnitude scales linearly under a nonnegative factor. -/
theorem peakAbs_map_mul (k : ℚ) (hk : 0 ≤ k) (l : List ℚ) :
    peakAbs (l.map (fun v => k * v)) = k * peakAbs l := by
  unfold peakAbs
  induction l with
  | nil => simp
  | cons a t ih =>
    simp only [List.map_cons, List.foldr_cons, ih]
    rw [abs_mul, abs_of_nonneg hk, ← mul_max_of_nonneg _ _ hk]

/-- C7 (corrected): the Error Metric (modelled by its square `nrmseSq`)
vanishes on identical sequences, and simultaneous scaling of both sequences
by `k > 0` leaves the score unchanged provided the reference's peak
magnitude stays at or above the `eps` floor both before and after scaling —
when the peak falls below `eps`, the normalization no longer scales with the
data and invariance fails (see the counterexample). -/
theorem C7_nrmse_identity_and_scale :
    (∀ (xs : List ℚ) (eps : ℚ), nrmseSq xs xs eps = 0) ∧
    (∀ (sim exp : List ℚ) (k eps : ℚ), 0 < k → sim.length = exp.length →
      eps ≤ peakAbs exp → eps ≤ k * peakAbs exp →
      nrmseSq (sim.map (fun v => k * v)) (exp.map (fun v => k * v)) eps =
        nrmseSq sim exp eps) := by
  constructor
  · intro xs eps
    unfold nrmseSq meanQ
    rw [zipWith_sq_self_sum]
    simp
  · intro sim exp k eps hk _hlen hp hkp
    unfold nrmseSq
    rw [zipWith_sq_map_mul, meanQ_map_mul, peakAbs_map_mul k (le_of_lt hk)]
    rw [max_eq_left hp, max_eq_left hkp, mul_pow]
    exact mul_div_mul_left _ _ (pow_ne_zero 2 (ne_of_gt hk))

/-- Witness for C7: both parts at concrete inputs
(`xs = [1, 2]`, and `sim = [2]`, `exp = [4]`, `k = 3`, `eps = 1e-12`). -/
theorem C7_nrmse_identity_and_scale_witness :
    nrmseSq [1, 2] [1, 2] epsDefault = 0 ∧
    ((0 : ℚ) < 3 ∧ epsDefault ≤ peakAbs [4] ∧ epsDefault ≤ 3 * peakAbs [4] ∧
      nrmseSq ([2].map (fun v => (3 : ℚ) * v)) ([4].map (fun v => (3 : ℚ) * v))
          epsDefault =
        nrmseSq [2] [4] epsDefault) :=

  ⟨C7_nrmse_identity_and_scale.1 [1, 2] epsDefault,
    by decide, by decide, by decide,
    C7_nrmse_identity_and_scale.2 [2] [4] 3 epsDefault (by decide) rfl
      (by decide) (by decide)⟩

/-- Counterexample for C7 as stated: with reference `[0]` the peak magnitude
is below the `eps` floor, so the denominator does not scale; scaling
`sim = [1]`, `exp = [0]` by `k = 2` changes the score. -/
theorem C7_nrmse_scale_cex :
    ¬ (∀ (sim exp : List ℚ) (k : ℚ), 0 < k → sim.length = exp.length →
        nrmseSq (sim.map (fun v => k * v)) (exp.map (fun v => k * v)) epsDefault =
          nrmseSq sim exp epsDefault) := by
  intro h
  have h2 := h [1] [0] 2 (by decide) rfl
  exact absurd h2 (by decide)

/-- Interpolating at progress `0` returns the first value. -/
theorem interpProgress_zero (y : List ℚ) : interpProgress y 0 = y.getD 0 0 := by
  simp [interpProgress]

/-- Interpolating at progress `1` returns the last value. -/
theorem interpProgress_one (y : List ℚ) (h : 2 ≤ y.length) :
    interpProgress y 1 = y.getD (y.length - 1) 0 := by
  simp only [interpProgress]
  have h1 : (1 : ℚ) * ((y.length : ℚ) - 1) = ((y.length - 1 : ℤ) : ℚ) := by
    push_cast [Nat.one_le_iff_ne_zero.mpr (by omega : y.length ≠ 0)]
    ring
  rw [h1, Int.floor_intCast]
  have h2 : (y.length - 1 : ℤ).toNat = y.length - 1 := by omega
  rw [h2]
  have h3 : min (y.length - 1) (y.length - 2) = y.length - 2 := by omega
  rw [h3]
  have h4 : ((y.length - 2 : ℕ) : ℚ) = (y.length : ℚ) - 2 := by
    push_cast [Nat.cast_sub h]
    ring
  have h5 : y.length - 2 + 1 = y.length - 1 := by omega
  rw [h4, h5]
  push_cast
  ring

/-- C6 (as stated): the Resampler rejects `n < 2` and `m < 2` with the
`InvalidArgument` errors, and on success returns exactly `n` points with
fresh step indices `1..n` whose values interpolate the input at the `n`
evenly spaced progress fractions `k/(n-1)`; the first and last output values
are the first and last input values; and `[1,2,3,4,5]` resampled to `n = 3`
gives values `[1, 3, 5]`. -/
theorem C6_resample_contract :
    (∀ (y : List ℚ) (n : ℕ), n < 2 →
      resample_to_n_points y n = .error "n must be >= 2") ∧
    (∀ (y : List ℚ) (n : ℕ), 2 ≤ n → y.length < 2 →
      resample_to_n_points y n = .error "Need at least 2 points to resample") ∧
    (∀ (y : List ℚ) (n : ℕ) (out : List (ℕ × ℚ)),
      resample_to_n_points y n = .ok out →
      out.length = n ∧ out.map Prod.fst = List.range' 1 n ∧
      (∀ k, k < n →
        out[k]? = some (k + 1, interpProgress y ((k : ℚ) / ((n : ℚ) - 1)))) ∧
      out.head?.map Prod.snd = some (y.getD 0 0) ∧
      out.getLast?.map Prod.snd = some (y.getD (y.length - 1) 0)) ∧
    resample_to_n_points [1, 2, 3, 4, 5] 3 = .ok [(1, 1), (2, 3), (3, 5)] := by
  refine ⟨?_, ?_, ?_, by decide⟩
  · intro y n hn
    simp [resample_to_n_points, hn]
  · intro y n hn hm
    have hn2 : ¬ n < 2 := by omega
    simp [resample_to_n_points, hn2, hm]
  · intro y n out hok
    unfold resample_to_n_points at hok
    by_cases hn : n < 2
    · simp [hn] at hok
    by_cases hm : y.length < 2
    · simp [hn, hm] at hok
    simp only [hn, hm, if_false] at hok
    injection hok with hout
    subst hout
    push_neg at hn hm
    refine ⟨by simp, ?_, ?_, ?_, ?_⟩
    · rw [List.map_map, List.range'_eq_map_range]
      congr 1
      funext k
      simp [add_comm]
    · intro k hk
      simp [List.getElem?_map, List.getElem?_range hk]
    · rw [List.head?_eq_getElem?, List.getElem?_map, List.getElem?_range (by omega : 0 < n)]
      simp [interpProgress_zero]
    · rw [List.getLast?_eq_getElem?]
      simp only [List.length_map, List.length_range]
      rw [List.getElem?_map, List.getElem?_range (by omega : n - 1 < n)]
      have hfrac : ((n - 1 : ℕ) : ℚ) / ((n : ℚ) - 1) = 1 := by
        have hc : ((n - 1 : ℕ) : ℚ) = (n : ℚ) - 1 := by
          push_cast [Nat.cast_sub (by omega : 1 ≤ n)]
          ring
        rw [hc]
        refine div_self ?_
        have h2 : (2 : ℚ) ≤ (n : ℚ) := by exact_mod_cast hn
        linarith
      simp [hfrac, interpProgress_one y hm]

/-- Witness for C6: the error cases at `n = 1` and `y = [7]`, and the success
case at the scenario input. -/
theorem C6_resample_contract_witness :
    ((1 : ℕ) < 2 ∧ resample_to_n_points [1, 2] 1 = .error "n must be >= 2") ∧
    ((2 : ℕ) ≤ 3 ∧ ([7] : List ℚ).length < 2 ∧
      resample_to_n_points [7] 3 = .error "Need at least 2 points to resample") ∧
    (resample_to_n_points [1, 2, 3, 4, 5] 3 = .ok [(1, 1), (2, 3), (3, 5)] ∧
      [(1, 1), (2, 3), (3, 5)].length = 3) :=
  ⟨⟨by decide, C6_resample_contract.1 [1, 2] 1 (by decide)⟩,
    ⟨by decide, by decide, C6_resample_contract.2.1 [7] 3 (by decide) (by decide)⟩,
    ⟨C6_resample_contract.2.2.2,
      (C6_resample_contract.2.2.1 [1, 2, 3, 4, 5] 3 [(1, 1), (2, 3), (3, 5)]
        C6_resample_contract.2.2.2).1⟩⟩

/-- C1 (corrected): the error policy `objective_coeffs` actually implements.
The run-directory cleanup always occurs; solver invocation failures
(timeout or any launch exception), a non-zero exit code, and a missing
reaction file are converted to the penalty score; but an exception in
parameter injection (`write_coeffs` / `update_log_data_file`) or in the
parse / resample / metric stage propagates to the caller. -/
theorem C1_objective_error_policy (env : PipelineEnv) :
    (objective_coeffs env).2 = true ∧
    (∀ e, env.injection = some e → (objective_coeffs env).1 = .error e) ∧
    (env.injection = none → (env.solver = .timeout ∨ env.solver = .launchError) →
      (objective_coeffs env).1 = .ok PENALTY) ∧
    (∀ rc, env.injection = none → env.solver = .finished rc → rc ≠ 0 →
      (objective_coeffs env).1 = .ok PENALTY) ∧
    (env.injection = none → env.solver = .finished 0 →
      env.reactionFileExists = false → (objective_coeffs env).1 = .ok PENALTY) ∧
    (∀ e, env.injection = none → env.solver = .finished 0 →
      env.reactionFileExists = true → env.analysis = .error e →
      (objective_coeffs env).1 = .error e) ∧
    (∀ v, env.injection = none → env.solver = .finished 0 →
      env.reactionFileExists = true → env.analysis = .ok v →
      (objective_coeffs env).1 = .ok v) := by
  obtain ⟨inj, sol, rfe, ana⟩ := env
  refine ⟨?_, ?_, ?_, ?_, ?_, ?_, ?_⟩
  · cases inj <;> cases sol <;> cases rfe <;> cases ana <;>
      simp [objective_coeffs] <;> split <;> rfl
  · rintro e rfl
    rfl
  · rintro rfl (rfl | rfl) <;> rfl
  · rintro rc rfl rfl hrc
    simp only [objective_coeffs, if_pos hrc]
  · rintro rfl rfl rfl
    rfl
  · rintro e rfl rfl rfl h
    simp only at h
    subst h
    rfl
  · rintro v rfl rfl rfl h
    simp only at h
    subst h
    rfl

/-- Witness for C1: a timeout is converted to the penalty, cleanup runs. -/
theorem C1_objective_error_policy_witness :
    (objective_coeffs ⟨none, .timeout, true, .ok 1⟩).1 = .ok PENALTY ∧
    (objective_coeffs ⟨none, .timeout, true, .ok 1⟩).2 = true :=
  ⟨(C1_objective_error_policy _).2.2.1 rfl (Or.inl rfl),
    (C1_objective_error_policy _).1⟩

/-- Counterexample for C1 as stated: an injection failure (for instance the
`KeyError` raised by `write_coeffs` when the material tag is missing) is not
caught — the caller sees the exception, not the penalty score. -/
theorem C1_objective_error_policy_cex :
    ¬ (∀ env : PipelineEnv, ∃ q : ℚ, (objective_coeffs env).1 = .ok q) := by
  intro h
  obtain ⟨q, hq⟩ := h ⟨some "KeyError", .finished 0, true, .ok 1⟩
  exact absurd hq (by simp [objective_coeffs])

/-- C9 (code bug): `run_febio` does apply its `threads` argument as
`OMP_NUM_THREADS`, but `objective_coeffs` hardcodes `threads=6` in the
`run_febio` call, so a caller declaring a thread budget of `2` gets a solver
process with `OMP_NUM_THREADS = 6`, not `2`. -/
theorem C9_thread_budget_bug :
    (∀ t : ℕ, run_febio_omp_threads t = t) ∧
    applied_omp_threads 2 = 6 ∧
    ¬ (∀ t : ℕ, applied_omp_threads t = t) := by
  refine ⟨fun t => rfl, rfl, ?_⟩
  intro h
  have h2 := h 2
  simp [applied_omp_threads, run_febio_omp_threads,
    objective_coeffs_solver_threads] at h2

/-- Updating the entries whose key is `k` rewrites exactly the found entry. -/
theorem find_map_update (l : List (CacheKey × ℚ)) (k : CacheKey) (v : ℚ) :
    ((l.map (fun e => if e.1 = k then (k, v) else e)).find? (fun e => e.1 = k)) =
      (l.find? (fun e => e.1 = k)).map (fun _ => (k, v)) := by
  induction l with
  | nil => rfl
  | cons e t ih =>
    by_cases he : e.1 = k
    · simp [List.find?_cons, he]
    · simp [List.find?_cons, he, ih]

/-- Updating key `k` does not move any other key's entry. -/
theorem find_map_update_ne (l : List (CacheKey × ℚ)) (k k2 : CacheKey) (v : ℚ)
    (h : k ≠ k2) :
    ((l.map (fun e => if e.1 = k then (k, v) else e)).find? (fun e => e.1 = k2)) =
      l.find? (fun e => e.1 = k2) := by
  induction l with
  | nil => rfl
  | cons e t ih =>
    by_cases he : e.1 = k
    · rw [List.map_cons, if_pos he]
      rw [List.find?_cons_of_neg _ (by simp [h]),
        List.find?_cons_of_neg _ (by simp [he, h])]
      exact ih
    · by_cases h2 : e.1 = k2
      · rw [List.map_cons, if_neg he]
        rw [List.find?_cons_of_pos _ (by simp [h2]),
          List.find?_cons_of_pos _ (by simp [h2])]
      · rw [List.map_cons, if_neg he]
        rw [List.find?_cons_of_neg _ (by simp [h2]),
          List.find?_cons_of_neg _ (by simp [h2])]
        exact ih

/-- Searching an appended list starts over in the tail when the head list
has no match. -/
theorem find_append_of_none {α : Type} (p : α → Bool) (l1 l2 : List α)
    (h : l1.find? p = none) : (l1 ++ l2).find? p = l2.find? p := by
  induction l1 with
  | nil => rfl
  | cons e t ih =>
    cases hp : p e with
    | true => simp [List.find?_cons, hp] at h
    | false =>
      simp only [List.find?_cons, hp] at h
      simp only [List.cons_append, List.find?_cons, hp]
      exact ih h

/-- A fresh score is found under its own key. -/
theorem lookupKey_insertKey_self (l : List (CacheKey × ℚ)) (k : CacheKey) (v : ℚ) :
    lookupKey (insertKey l k v) k = some v := by
  unfold insertKey lookupKey
  by_cases h : (l.find? (fun e => e.1 = k)).isSome
  · rw [if_pos h, find_map_update]
    obtain ⟨e, he⟩ := Option.isSome_iff_exists.mp h
    rw [he]
    rfl
  · rw [if_neg h]
    rw [Option.not_isSome_iff_eq_none] at h
    rw [find_append_of_none _ _ _ h]
    simp [List.find?_cons]

/-- Inserting a score leaves every other key's lookup unchanged. -/
theorem lookupKey_insertKey_ne (l : List (CacheKey × ℚ)) (k k2 : CacheKey)
    (v : ℚ) (h : k ≠ k2) : lookupKey (insertKey l k v) k2 = lookupKey l k2 := by
  unfold insertKey lookupKey
  by_cases hs : (l.find? (fun e => e.1 = k)).isSome
  · rw [if_pos hs, find_map_update_ne _ _ _ _ h]
  · rw [if_neg hs]
    rw [Option.not_isSome_iff_eq_none] at hs
    by_cases h2 : (l.find? (fun e => e.1 = k2)).isSome
    · obtain ⟨e, he⟩ := Option.isSome_iff_exists.mp h2
      rw [List.find?_append, he]
      rfl
    · rw [Option.not_isSome_iff_eq_none] at h2
      rw [find_append_of_none _ _ _ h2, h2]
      simp [List.find?_cons, h]

/-- A cache hit returns the stored score and leaves the state unchanged. -/
theorem runnerCall_cache_hit (su : OptSetup) (s : RunnerState) (x : List ℚ)
    (v : ℚ) (h : lookupKey s.cache (keyOf su x) = some v) :
    runnerCall su s x = (.ret v, s) := by
  unfold keyOf at h
  simp only [runnerCall, h]

/-- A cross-session log hit returns the stored score, records it into the
cache, and performs no evaluation. -/
theorem runnerCall_logged_hit (su : OptSetup) (s : RunnerState) (x : List ℚ)
    (v : ℚ) (hc : lookupKey s.cache (keyOf su x) = none)
    (hl : lookupKey s.logged (keyOf su x) = some v) :
    runnerCall su s x =
      (.ret v, { s with cache := insertKey s.cache (keyOf su x) v }) := by
  unfold keyOf at hc hl ⊢
  simp only [runnerCall, hc, hl]

/-- After any call, the vector's key is present in the in-session cache. -/
theorem runnerCall_key_cached (su : OptSetup) (s : RunnerState) (x : List ℚ) :
    ∃ v, lookupKey (runnerCall su s x).2.cache (keyOf su x) = some v := by
  rcases hc : lookupKey s.cache (keyOf su x) with _ | v
  · rcases hl : lookupKey s.logged (keyOf su x) with _ | v
    · refine ⟨su.obj (coeffsOf su x), ?_⟩
      unfold keyOf at hc hl ⊢
      simp only [runnerCall, hc, hl]
      split <;> (try split) <;> (try split) <;>
        simp [lookupKey_insertKey_self]
    · rw [runnerCall_logged_hit su s x v hc hl]
      exact ⟨v, lookupKey_insertKey_self _ _ _⟩
  · rw [runnerCall_cache_hit su s x v hc]
    exact ⟨v, hc⟩

/-- One call performs at most one real evaluation. -/
theorem runnerCall_evalCount_le (su : OptSetup) (s : RunnerState) (x : List ℚ) :
    (runnerCall su s x).2.evalCount ≤ s.evalCount + 1 := by
  rcases hc : lookupKey s.cache (keyOf su x) with _ | v
  · rcases hl : lookupKey s.logged (keyOf su x) with _ | v
    · unfold keyOf at hc hl
      simp only [runnerCall, hc, hl]
      split <;> (try split) <;> (try split) <;> simp
    · rw [runnerCall_logged_hit su s x v hc hl]
      exact Nat.le_succ _
  · rw [runnerCall_cache_hit su s x v hc]
    exact Nat.le_succ _

/-- C2 (as stated): two optimizer vectors with the same rounded CacheKey
trigger at most one real evaluation; after the first call the key is cached,
so the second call returns the stored score and changes nothing. -/
theorem C2_same_key_single_eval (su : OptSetup) (s : RunnerState)
    (x1 x2 : List ℚ) (hk : keyOf su x1 = keyOf su x2) :
    (runnerCall su s x1).2.evalCount ≤ s.evalCount + 1 ∧
    (runnerCall su (runnerCall su s x1).2 x2).2 = (runnerCall su s x1).2 ∧
    ∃ v, lookupKey (runnerCall su s x1).2.cache (keyOf su x2) = some v ∧
      (runnerCall su (runnerCall su s x1).2 x2).1 = .ret v := by
  obtain ⟨v, hv⟩ := runnerCall_key_cached su s x1
  rw [hk] at hv
  rw [runnerCall_cache_hit su (runnerCall su s x1).2 x2 v hv]
  exact ⟨runnerCall_evalCount_le su s x1, rfl, v, hv, rfl⟩

/-- Witness for C2: under the repository configuration, the vectors
`[-5, 1, -5, 1]` and `[-5.00001, 1, -5, 1]` round to the same key; after
evaluating the first (stub objective constant 7), the second call returns
the cached score with no further evaluation. -/
theorem C2_same_key_single_eval_witness :
    keyOf (defaultSetup (fun _ => 7)) [-5, 1, -5, 1] =
      keyOf (defaultSetup (fun _ => 7)) [-500001 / 100000, 1, -5, 1] ∧
    (runnerCall (defaultSetup (fun _ => 7)) (initState [])
        [-5, 1, -5, 1]).2.evalCount ≤ (initState []).evalCount + 1 ∧
    (runnerCall (defaultSetup (fun _ => 7))
        (runnerCall (defaultSetup (fun _ => 7)) (initState []) [-5, 1, -5, 1]).2
        [-500001 / 100000, 1, -5, 1]).2 =
      (runnerCall (defaultSetup (fun _ => 7)) (initState []) [-5, 1, -5, 1]).2 :=
  ⟨by decide,
    (C2_same_key_single_eval (defaultSetup (fun _ => 7)) (initState [])
      [-5, 1, -5, 1] [-500001 / 100000, 1, -5, 1] (by decide)).1,
    (C2_same_key_single_eval (defaultSetup (fun _ => 7)) (initState [])
      [-5, 1, -5, 1] [-500001 / 100000, 1, -5, 1] (by decide)).2.1⟩

/-- C4 (as stated): a key that misses the in-session cache but hits the
loaded cross-session log is answered from history — no new evaluation — and
the historical score is recorded into the in-session cache. -/
theorem C4_logged_reuse (su : OptSetup) (s : RunnerState) (x : List ℚ) (v : ℚ)
    (hc : lookupKey s.cache (keyOf su x) = none)
    (hl : lookupKey s.logged (keyOf su x) = some v) :
    (runnerCall su s x).1 = .ret v ∧
    (runnerCall su s x).2.evalCount = s.evalCount ∧
    lookupKey (runnerCall su s x).2.cache (keyOf su x) = some v := by
  rw [runnerCall_logged_hit su s x v hc hl]
  exact ⟨rfl, rfl, lookupKey_insertKey_self _ _ _⟩

/-- Witness for C4: a fresh session whose loaded log contains the key of
`[-5, 1, -5, 1]` with score 42 reuses 42 without evaluating. -/
theorem C4_logged_reuse_witness :
    lookupKey (initState [(keyOf (defaultSetup (fun _ => 7)) [-5, 1, -5, 1], 42)]).cache
      (keyOf (defaultSetup (fun _ => 7)) [-5, 1, -5, 1]) = none ∧
    lookupKey (initState [(keyOf (defaultSetup (fun _ => 7)) [-5, 1, -5, 1], 42)]).logged
      (keyOf (defaultSetup (fun _ => 7)) [-5, 1, -5, 1]) = some 42 ∧
    (runnerCall (defaultSetup (fun _ => 7))
        (initState [(keyOf (defaultSetup (fun _ => 7)) [-5, 1, -5, 1], 42)])
        [-5, 1, -5, 1]).1 = .ret 42 :=
  ⟨by decide, by decide,
    (C4_logged_reuse (defaultSetup (fun _ => 7))
      (initState [(keyOf (defaultSetup (fun _ => 7)) [-5, 1, -5, 1], 42)])
      [-5, 1, -5, 1] 42 (by decide) (by decide)).1⟩

/-- C10 (as stated): a call answered from the in-session cache or the loaded
history returns the stored score, never increments the real-evaluation
count, and never signals the stop condition — whatever the stored score. -/
theorem C10_hits_never_stop (su : OptSetup) (s : RunnerState) (x : List ℚ)
    (h : (∃ v, lookupKey s.cache (keyOf su x) = some v) ∨
      (lookupKey s.cache (keyOf su x) = none ∧
        ∃ v, lookupKey s.logged (keyOf su x) = some v)) :
    (runnerCall su s x).1 ≠ .stop ∧
    (runnerCall su s x).2.evalCount = s.evalCount ∧
    ∃ v, (lookupKey s.cache (keyOf su x) = some v ∨
        lookupKey s.logged (keyOf su x) = some v) ∧
      (runnerCall su s x).1 = .ret v := by
  rcases h with ⟨v, hv⟩ | ⟨hc, v, hv⟩
  · rw [runnerCall_cache_hit su s x v hv]
    exact ⟨by simp, rfl, v, Or.inl hv, rfl⟩
  · rw [runnerCall_logged_hit su s x v hc hv]
    exact ⟨by simp, rfl, v, Or.inr hv, rfl⟩

/-- Witness for C10: a logged score of 1 — far below the target 5 — is
reused without stopping. -/
theorem C10_hits_never_stop_witness :
    ((1 : ℚ) ≤ (defaultSetup (fun _ => 7)).targetErr) ∧
    (runnerCall (defaultSetup (fun _ => 7))
        (initState [(keyOf (defaultSetup (fun _ => 7)) [-5, 1, -5, 1], 1)])
        [-5, 1, -5, 1]).1 ≠ .stop :=
  ⟨by decide,
    (C10_hits_never_stop (defaultSetup (fun _ => 7))
      (initState [(keyOf (defaultSetup (fun _ => 7)) [-5, 1, -5, 1], 1)])
      [-5, 1, -5, 1] (Or.inr ⟨by decide, 1, by decide⟩)).1⟩

/-- The stop signal of a real (uncached, unlogged) evaluation: fires exactly
on reaching the target error or the evaluation cap. -/
theorem runnerCall_real_result (su : OptSetup) (s : RunnerState) (x : List ℚ)
    (hc : lookupKey s.cache (keyOf su x) = none)
    (hl : lookupKey s.logged (keyOf su x) = none) :
    (runnerCall su s x).1 =
      (if su.obj (coeffsOf su x) ≤ su.targetErr then .stop
       else if su.maxEvals ≤ s.evalCount + 1 then .stop
       else .ret (su.obj (coeffsOf su x))) := by
  unfold keyOf at hc hl
  simp only [runnerCall, hc, hl]
  split <;> (try split) <;> (try split) <;> rfl

/-- The state after a real evaluation: count incremented, score recorded in
log and cache, best-so-far updated — all before any stop signal. -/
theorem runnerCall_real_state (su : OptSetup) (s : RunnerState) (x : List ℚ)
    (hc : lookupKey s.cache (keyOf su x) = none)
    (hl : lookupKey s.logged (keyOf su x) = none) :
    (runnerCall su s x).2 =
      (if betterThan (su.obj (coeffsOf su x)) s.bestErr then
        { s with evalCount := s.evalCount + 1,
                 logged := insertKey s.logged (keyOf su x) (su.obj (coeffsOf su x)),
                 cache := insertKey s.cache (keyOf su x) (su.obj (coeffsOf su x)),
                 bestErr := some (su.obj (coeffsOf su x)),
                 bestCoeffs := some (coeffsOf su x) }
       else
        { s with evalCount := s.evalCount + 1,
                 logged := insertKey s.logged (keyOf su x) (su.obj (coeffsOf su x)),
                 cache := insertKey s.cache (keyOf su x) (su.obj (coeffsOf su x)) }) := by
  unfold keyOf at hc hl ⊢
  simp only [runnerCall, hc, hl]
  split <;> (try split) <;> (try split) <;> rfl

/-- C3 (as stated): after a real evaluation the stop condition is signalled
exactly when the score reaches the target threshold or the evaluation count
reaches the cap, with the best-so-far score and coefficients already updated
in the post-state; and in the concrete scenario — cap 3, target 5, a stub
objective constantly 50 — the stop fires after exactly 3 real evaluations
with best score 50. -/
theorem C3_stop_conditions (su : OptSetup) (s : RunnerState) (x : List ℚ)
    (hc : lookupKey s.cache (keyOf su x) = none)
    (hl : lookupKey s.logged (keyOf su x) = none) :
    (((runnerCall su s x).1 = .stop ↔
      (su.obj (coeffsOf su x) ≤ su.targetErr ∨ su.maxEvals ≤ s.evalCount + 1)) ∧
    (runnerCall su s x).2.evalCount = s.evalCount + 1 ∧
    (runnerCall su s x).2.bestErr =
      (if betterThan (su.obj (coeffsOf su x)) s.bestErr then
        some (su.obj (coeffsOf su x)) else s.bestErr) ∧
    (runnerCall su s x).2.bestCoeffs =
      (if betterThan (su.obj (coeffsOf su x)) s.bestErr then
        some (coeffsOf su x) else s.bestCoeffs)) ∧
    ((runCalls ⟨1, 3, 5, [], [1], fun _ => 50⟩ (initState [])
        [[-5, 1], [-4, 1], [-3, 1]]).2 = true ∧
      (runCalls ⟨1, 3, 5, [], [1], fun _ => 50⟩ (initState [])
        [[-5, 1], [-4, 1], [-3, 1]]).1.evalCount = 3 ∧
      (runCalls ⟨1, 3, 5, [], [1], fun _ => 50⟩ (initState [])
        [[-5, 1], [-4, 1], [-3, 1]]).1.bestErr = some 50) := by
  refine ⟨⟨?_, ?_, ?_, ?_⟩, by decide, by decide, by decide⟩
  · rw [runnerCall_real_result su s x hc hl]
    by_cases h1 : su.obj (coeffsOf su x) ≤ su.targetErr
    · simp [h1]
    · by_cases h2 : su.maxEvals ≤ s.evalCount + 1
      · simp [h1, h2]
      · simp [h1, h2]
  · rw [runnerCall_real_state su s x hc hl]
    split <;> rfl
  · rw [runnerCall_real_state su s x hc hl]
    split <;> simp_all
  · rw [runnerCall_real_state su s x hc hl]
    split <;> simp_all

/-- Witness for C3: the first call of the scenario is a real evaluation
(no cache, no log); the theorem gives its stop-iff and state facts. -/
theorem C3_stop_conditions_witness :
    (lookupKey (initState []).cache
      (keyOf ⟨1, 3, 5, [], [1], fun _ => (50 : ℚ)⟩ [-5, 1]) = none ∧
    lookupKey (initState []).logged
      (keyOf ⟨1, 3, 5, [], [1], fun _ => (50 : ℚ)⟩ [-5, 1]) = none) ∧
    (runnerCall ⟨1, 3, 5, [], [1], fun _ => (50 : ℚ)⟩ (initState [])
      [-5, 1]).2.evalCount = (initState []).evalCount + 1 :=
  ⟨⟨rfl, rfl⟩,
    ((C3_stop_conditions ⟨1, 3, 5, [], [1], fun _ => (50 : ℚ)⟩ (initState [])
      [-5, 1] rfl rfl).1).2.1⟩

/-- `setdefault` never changes the recorded values of any step. -/
theorem lookupVals_setdefault (d : List (ℤ × List ℚ)) (n s : ℤ) :
    lookupVals (setdefault d n) s = lookupVals d s := by
  unfold setdefault
  by_cases hp : (d.find? (fun e => e.1 = n)).isSome
  · rw [if_pos hp]
  · rw [if_neg hp]
    rw [Option.not_isSome_iff_eq_none] at hp
    unfold lookupVals
    rcases h2 : d.find? (fun e => e.1 = s) with _ | e
    · rw [find_append_of_none _ _ _ h2]
      by_cases hsn : s = n
      · subst hsn
        simp [List.find?_cons, h2]
      · simp [List.find?_cons, Ne.symm hsn, h2]
    · rw [List.find?_append, h2]
      rfl

/-- `setdefault` registers its key. -/
theorem hasStep_setdefault_self (d : List (ℤ × List ℚ)) (n : ℤ) :
    hasStep (setdefault d n) n = true := by
  unfold hasStep setdefault
  by_cases hp : (d.find? (fun e => e.1 = n)).isSome
  · rw [if_pos hp]
    exact hp
  · rw [if_neg hp]
    rw [Option.not_isSome_iff_eq_none] at hp
    rw [find_append_of_none _ _ _ hp]
    simp [List.find?_cons]

/-- `setdefault` keeps every registered key. -/
theorem hasStep_setdefault (d : List (ℤ × List ℚ)) (n t : ℤ)
    (h : hasStep d t = true) : hasStep (setdefault d n) t = true := by
  unfold hasStep setdefault
  by_cases hp : (d.find? (fun e => e.1 = n)).isSome
  · rw [if_pos hp]
    exact h
  · rw [if_neg hp]
    unfold hasStep at h
    obtain ⟨e, he⟩ := Option.isSome_iff_exists.mp h
    rw [List.find?_append, he]
    rfl

/-- The dict-update of one entry never changes its key. -/
theorem appendVal_fst (k : ℤ) (v : ℚ) (e : ℤ × List ℚ) :
    (if e.1 = k then (e.1, e.2 ++ [v]) else e).1 = e.1 := by
  split <;> rfl

/-- Appending a value never changes the key list. -/
theorem keysOf_appendVal (d : List (ℤ × List ℚ)) (k : ℤ) (v : ℚ) :
    keysOf (appendVal d k v) = keysOf d := by
  unfold keysOf appendVal
  rw [List.map_map]
  congr 1
  funext e
  exact appendVal_fst k v e

/-- Appending a value keeps every registered key registered. -/
theorem hasStep_appendVal (d : List (ℤ × List ℚ)) (k t : ℤ) (v : ℚ) :
    hasStep (appendVal d k v) t = hasStep d t := by
  unfold hasStep appendVal
  induction d with
  | nil => rfl
  | cons e rest ih =>
    rw [List.map_cons]
    by_cases he : e.1 = t
    · rw [List.find?_cons_of_pos _ (by simp only [appendVal_fst]; simp [he]),
        List.find?_cons_of_pos _ (by simp [he])]
      rfl
    · rw [List.find?_cons_of_neg _ (by simp only [appendVal_fst]; simp [he]),
        List.find?_cons_of_neg _ (by simp [he])]
      exact ih

/-- Appending a value to a registered step appends it to that step's list. -/
theorem lookupVals_appendVal_self (d : List (ℤ × List ℚ)) (k : ℤ) (v : ℚ)
    (h : hasStep d k = true) :
    lookupVals (appendVal d k v) k = lookupVals d k ++ [v] := by
  unfold lookupVals appendVal
  induction d with
  | nil => simp [hasStep] at h
  | cons e rest ih =>
    rw [List.map_cons]
    by_cases he : e.1 = k
    · rw [List.find?_cons_of_pos _ (by simp only [appendVal_fst]; simp [he]),
        List.find?_cons_of_pos _ (by simp [he])]
      simp [he]
    · rw [List.find?_cons_of_neg _ (by simp only [appendVal_fst]; simp [he]),
        List.find?_cons_of_neg _ (by simp [he])]
      refine ih ?_
      unfold hasStep at h ⊢
      rwa [List.find?_cons_of_neg _ (by simp [he])] at h

/-- Appending a value to step `k` leaves every other step's list alone. -/
theorem lookupVals_appendVal_ne (d : List (ℤ × List ℚ)) (k s : ℤ) (v : ℚ)
    (h : s ≠ k) : lookupVals (appendVal d k v) s = lookupVals d s := by
  unfold lookupVals appendVal
  induction d with
  | nil => rfl
  | cons e rest ih =>
    rw [List.map_cons]
    by_cases he : e.1 = s
    · rw [List.find?_cons_of_pos _ (by simp only [appendVal_fst]; simp [he]),
        List.find?_cons_of_pos _ (by simp [he])]
      have hk : ¬ e.1 = k := by rw [he]; exact h
      simp [hk]
    · rw [List.find?_cons_of_neg _ (by simp only [appendVal_fst]; simp [he]),
        List.find?_cons_of_neg _ (by simp [he])]
      exact ih

/-- A step with a recorded value has a dict entry. -/
theorem mem_keysOf_of_lookupVals_ne_nil (d : List (ℤ × List ℚ)) (s : ℤ)
    (h : lookupVals d s ≠ []) : s ∈ keysOf d := by
  unfold lookupVals at h
  rcases hf : d.find? (fun e => e.1 = s) with _ | e
  · rw [hf] at h
    simp at h
  · have hmem := List.mem_of_find?_eq_some hf
    have hkey := List.find?_some hf
    simp only [decide_eq_true_eq] at hkey
    unfold keysOf
    exact List.mem_map.mpr ⟨e, hmem, hkey⟩

/-- Our insertion into a sorted list is Mathlib's `orderedInsert`. -/
theorem insertSorted_eq (a : ℤ) (l : List ℤ) :
    insertSorted a l = List.orderedInsert (· ≤ ·) a l := by
  induction l with
  | nil => rfl
  | cons b rest ih =>
    unfold insertSorted List.orderedInsert
    by_cases h : a ≤ b
    · rw [if_pos h, if_pos h]
    · rw [if_neg h, if_neg h, ih]

/-- Our key sort is Mathlib's insertion sort. -/
theorem sortInts_eq (l : List ℤ) : sortInts l = List.insertionSort (· ≤ ·) l := by
  induction l with
  | nil => rfl
  | cons a rest ih =>
    unfold sortInts List.insertionSort
    rw [ih, insertSorted_eq]

/-- The sorted key list is a permutation of the keys. -/
theorem sortInts_perm (l : List ℤ) : List.Perm (sortInts l) l := by
  rw [sortInts_eq]
  exact List.perm_insertionSort (· ≤ ·) l

/-- The sorted key list of a duplicate-free key set is strictly increasing. -/
theorem sortInts_pairwise_lt (l : List ℤ) (h : l.Nodup) :
    (sortInts l).Pairwise (· < ·) := by
  have hs : (sortInts l).Pairwise (· ≤ ·) := by
    rw [sortInts_eq]
    exact List.sorted_insertionSort (· ≤ ·) l
  have hn : (sortInts l).Nodup := ((sortInts_perm l).symm).nodup h
  exact (hs.and hn).imp (fun hab => lt_of_le_of_ne hab.1 hab.2)

/-- The line loop, projected to one step: the values the dict records for
step `s` are its prior values followed by the kept readings the remaining
lines attribute to `s` (given the invariant that the current step, when set,
is registered). -/
theorem scanLines_lookupVals (keep : Option (List ℤ)) :
    ∀ (lines : List LogLine) (cur : Option ℤ) (d : List (ℤ × List ℚ)),
      (∀ t, cur = some t → hasStep d t = true) →
      ∀ s, lookupVals (scanLines keep lines cur d).2 s =
        lookupVals d s ++ keptRowsFrom keep cur s lines := by
  intro lines
  induction lines with
  | nil =>
    intro cur d _ s
    simp [scanLines, keptRowsFrom]
  | cons l rest ih =>
    intro cur d hinv s
    cases l with
    | stepHeader n =>
      simp only [scanLines, keptRowsFrom]
      rw [ih (some n) (setdefault d n)
        (fun t ht => by
          injection ht with ht
          subst ht
          exact hasStep_setdefault_self d n) s]
      rw [lookupVals_setdefault]
    | starOther =>
      simp only [scanLines, keptRowsFrom]
      exact ih cur d hinv s
    | junk =>
      simp only [scanLines, keptRowsFrom]
      exact ih cur d hinv s
    | numRow id v =>
      cases cur with
      | none =>
        simp only [scanLines, keptRowsFrom]
        exact ih none d (fun t ht => by cases ht) s
      | some t =>
        simp only [scanLines, keptRowsFrom]
        have hst : hasStep d t = true := hinv t rfl
        by_cases hk : keepOk keep id = true
        · rw [if_pos hk]
          rw [ih (some t) (appendVal d t v)
            (fun u hu => by
              injection hu with hu
              subst hu
              rw [hasStep_appendVal]
              exact hst) s]
          by_cases hts : t = s
          · subst hts
            rw [if_pos ⟨rfl, hk⟩, lookupVals_appendVal_self d t v hst]
            simp
          · rw [if_neg (fun hc => hts hc.1),
              lookupVals_appendVal_ne d t s v (fun hc => hts hc.symm)]
        · rw [if_neg (by simpa using hk), if_neg (fun hc => hk hc.2)]
          exact ih (some t) d hinv s

/-- The values of step `s` in a parsed log are exactly its kept readings. -/
theorem scanLines_keptRows (keep : Option (List ℤ)) (lines : List LogLine)
    (s : ℤ) :
    lookupVals (scanLines keep lines none []).2 s = keptRows keep s lines := by
  rw [keptRows, scanLines_lookupVals keep lines none [] (fun t ht => by cases ht) s]
  rfl

/-- `setdefault` keeps the key list duplicate-free. -/
theorem keysOf_setdefault_nodup (d : List (ℤ × List ℚ)) (n : ℤ)
    (h : (keysOf d).Nodup) : (keysOf (setdefault d n)).Nodup := by
  unfold setdefault
  by_cases hp : (d.find? (fun e => e.1 = n)).isSome
  · rw [if_pos hp]
    exact h
  · rw [if_neg hp]
    rw [Option.not_isSome_iff_eq_none] at hp
    unfold keysOf
    rw [List.map_append]
    refine List.Nodup.append h (by simp) ?_
    intro a ha hb
    simp only [List.map_cons, List.map_nil, List.mem_singleton] at hb
    subst hb
    obtain ⟨e, he, hfst⟩ := List.mem_map.mp ha
    have := List.find?_eq_none.mp hp e he
    simp [hfst] at this

/-- The line loop keeps the key list duplicate-free. -/
theorem scanLines_keys_nodup (keep : Option (List ℤ)) :
    ∀ (lines : List LogLine) (cur : Option ℤ) (d : List (ℤ × List ℚ)),
      (keysOf d).Nodup → (keysOf (scanLines keep lines cur d).2).Nodup := by
  intro lines
  induction lines with
  | nil =>
    intro cur d h
    simpa [scanLines] using h
  | cons l rest ih =>
    intro cur d h
    cases l with
    | stepHeader n =>
      simp only [scanLines]
      exact ih (some n) (setdefault d n) (keysOf_setdefault_nodup d n h)
    | starOther =>
      simp only [scanLines]
      exact ih cur d h
    | junk =>
      simp only [scanLines]
      exact ih cur d h
    | numRow id v =>
      cases cur with
      | none =>
        simp only [scanLines]
        exact ih none d h
      | some t =>
        simp only [scanLines]
        by_cases hk : keepOk keep id = true
        · rw [if_pos hk]
          refine ih (some t) (appendVal d t v) ?_
          rw [keysOf_appendVal]
          exact h
        · rw [if_neg (by simpa using hk)]
          exact ih (some t) d h

/-- The output loop succeeds on a valid aggregation mode, producing one
optional row per step: `none` for a step with no kept reading, otherwise
the aggregated value. -/
theorem buildOut_ok (agg : String) (d : List (ℤ × List ℚ))
    (hagg : agg = "sum" ∨ agg = "mean") (steps : List ℤ) :
    buildOut agg d steps = .ok (steps.map (fun st =>
      (st, if (lookupVals d st).length = 0 then none
        else some (aggValue agg (lookupVals d st))))) := by
  induction steps with
  | nil => rfl
  | cons st rest ih =>
    rcases hagg with rfl | rfl
    · by_cases hlen : (lookupVals d st).length = 0
      · have h0 : lookupVals d st = [] := List.length_eq_zero.mp hlen
        simp [buildOut, hlen, h0, ih, Except.map]
      · have h0 : lookupVals d st ≠ [] := fun hc => hlen (by rw [hc]; rfl)
        simp [buildOut, hlen, h0, ih, Except.map, aggValue]
    · by_cases hlen : (lookupVals d st).length = 0
      · have h0 : lookupVals d st = [] := List.length_eq_zero.mp hlen
        simp [buildOut, hlen, h0, ih, Except.map]
      · have h0 : lookupVals d st ≠ [] := fun hc => hlen (by rw [hc]; rfl)
        simp [buildOut, hlen, h0, ih, Except.map, aggValue]

/-- The output loop hits the aggregation-mode `ValueError` as soon as some
step in the list has a kept reading. -/
theorem buildOut_invalid (agg : String) (d : List (ℤ × List ℚ))
    (hs : agg ≠ "sum") (hm : agg ≠ "mean") :
    ∀ steps : List ℤ, (∃ st ∈ steps, (lookupVals d st).length ≠ 0) →
      buildOut agg d steps = .error .invalidAgg := by
  intro steps
  induction steps with
  | nil =>
    rintro ⟨st, hmem, _⟩
    cases hmem
  | cons st rest ih =>
    rintro ⟨t, hmem, htne⟩
    by_cases hlen : (lookupVals d st).length = 0
    · have htr : t ∈ rest := by
        rcases List.mem_cons.mp hmem with rfl | hr
        · exact absurd hlen htne
        · exact hr
      simp [buildOut, hlen, ih ⟨t, htr, htne⟩, Except.map]
    · simp [buildOut, hlen, hs, hm]

/-- Filtering a keyed option map keeps the key order: the output keys form a
sublist of the input keys. -/
theorem filterMap_keyed_fst_sublist {β : Type} (h : ℤ → Option (ℤ × β))
    (hkey : ∀ st p, h st = some p → p.1 = st) :
    ∀ steps : List ℤ, ((steps.filterMap h).map Prod.fst).Sublist steps := by
  intro steps
  induction steps with
  | nil => simp
  | cons st rest ih =>
    rw [List.filterMap_cons]
    rcases hh : h st with _ | p
    · exact ih.cons st
    · rw [List.map_cons, hkey st p hh]
      exact ih.cons₂ st

/-- C5 (as stated): on a valid aggregation mode, a successful parse returns
a series with strictly increasing step indices whose value at each step is
the chosen aggregation over exactly that step's kept readings; steps with no
kept reading are excluded, and every step with a kept reading appears. -/
theorem C5_extractor_correct (lines : List LogLine) (keep : Option (List ℤ))
    (agg : String) (out : List (ℤ × ℚ))
    (hagg : agg = "sum" ∨ agg = "mean")
    (hok : parse_febio_log_by_step lines keep agg = .ok out) :
    (out.map Prod.fst).Pairwise (· < ·) ∧
    (∀ p ∈ out, keptRows keep p.1 lines ≠ [] ∧
      p.2 = aggValue agg (keptRows keep p.1 lines)) ∧
    (∀ s : ℤ, keptRows keep s lines ≠ [] → s ∈ out.map Prod.fst) := by
  have hvals := scanLines_keptRows keep lines
  have hnodup : (keysOf (scanLines keep lines none []).2).Nodup :=
    scanLines_keys_nodup keep lines none [] (by simp [keysOf])
  have hsorted := sortInts_pairwise_lt _ hnodup
  simp only [parse_febio_log_by_step] at hok
  rw [buildOut_ok agg _ hagg] at hok
  simp only [List.filterMap_map] at hok
  have hcomp : ((fun p => Option.map (fun v => ((p : ℤ × Option ℚ).1, v)) p.2) ∘
      (fun st => (st, if (lookupVals (scanLines keep lines none []).2 st).length = 0
        then none
        else some (aggValue agg (lookupVals (scanLines keep lines none []).2 st))))) =
      (fun st => if (lookupVals (scanLines keep lines none []).2 st).length = 0
        then none
        else some (st, aggValue agg (lookupVals (scanLines keep lines none []).2 st))) := by
    funext st
    by_cases h0 : lookupVals (scanLines keep lines none []).2 st = []
    · simp [h0]
    · simp [h0]
  rw [hcomp] at hok
  split at hok
  · cases hok
  · injection hok with hok
    subst hok
    refine ⟨?_, ?_, ?_⟩
    · refine List.Pairwise.sublist ?_ hsorted
      refine filterMap_keyed_fst_sublist _ ?_ _
      intro st p hp
      by_cases hlen : (lookupVals (scanLines keep lines none []).2 st).length = 0
      · rw [if_pos hlen] at hp
        cases hp
      · rw [if_neg hlen] at hp
        injection hp with hp
        rw [← hp]
    · intro p hp
      obtain ⟨st, hmem, hsome⟩ := List.mem_filterMap.mp hp
      by_cases hlen : (lookupVals (scanLines keep lines none []).2 st).length = 0
      · rw [if_pos hlen] at hsome
        cases hsome
      · rw [if_neg hlen] at hsome
        injection hsome with hsome
        subst hsome
        constructor
        · rw [← hvals st]
          intro hc
          exact hlen (by rw [hc]; rfl)
        · rw [← hvals st]
    · intro s hs
      have hlv : lookupVals (scanLines keep lines none []).2 s ≠ [] := by
        rw [hvals s]
        exact hs
      have hmem := mem_keysOf_of_lookupVals_ne_nil _ s hlv
      have hmemsteps : s ∈ sortInts (keysOf (scanLines keep lines none []).2) :=
        (sortInts_perm _).mem_iff.mpr hmem
      have hlen : ¬ (lookupVals (scanLines keep lines none []).2 s).length = 0 :=
        fun h0 => hlv (List.length_eq_zero.mp h0)
      refine List.mem_map.mpr
        ⟨(s, aggValue agg (lookupVals (scanLines keep lines none []).2 s)),
          List.mem_filterMap.mpr ⟨s, hmemsteps, by rw [if_neg hlen]⟩, rfl⟩

/-- Witness for C5: the log with steps 1 and 2, keep-set filtering id 1,
summed — the parse succeeds and all three conclusions are instantiated. -/
theorem C5_extractor_correct_witness :
    (("sum" : String) = "sum" ∨ ("sum" : String) = "mean") ∧
    parse_febio_log_by_step
      [.stepHeader 1, .numRow 1 2, .numRow 2 3, .stepHeader 2, .numRow 1 5]
      (some [1]) "sum" = .ok [(1, 2), (2, 5)] ∧
    (([(1, 2), (2, 5)] : List (ℤ × ℚ)).map Prod.fst).Pairwise (· < ·) :=
  ⟨Or.inl rfl, by decide,
    (C5_extractor_correct
      [.stepHeader 1, .numRow 1 2, .numRow 2 3, .stepHeader 2, .numRow 1 5]
      (some [1]) "sum" [(1, 2), (2, 5)] (Or.inl rfl) (by decide)).1⟩

/-- C8 (corrected): an unsupported aggregation mode fails with the
`InvalidArgument` `ValueError` only when at least one step has at least one
kept reading — the checks run per step, so on a log with no kept readings
the no-data error fires instead (see the counterexample). -/
theorem C8_invalid_agg (lines : List LogLine) (keep : Option (List ℤ))
    (agg : String) (hs : agg ≠ "sum") (hm : agg ≠ "mean")
    (hne : ∃ s : ℤ, keptRows keep s lines ≠ []) :
    parse_febio_log_by_step lines keep agg = .error .invalidAgg := by
  obtain ⟨s, hsne⟩ := hne
  have hlv : lookupVals (scanLines keep lines none []).2 s ≠ [] := by
    rw [scanLines_keptRows]
    exact hsne
  have hmem := mem_keysOf_of_lookupVals_ne_nil _ s hlv
  have hmemsteps : s ∈ sortInts (keysOf (scanLines keep lines none []).2) :=
    (sortInts_perm _).mem_iff.mpr hmem
  simp only [parse_febio_log_by_step]
  rw [buildOut_invalid agg _ hs hm _
    ⟨s, hmemsteps, fun h0 => hlv (List.length_eq_zero.mp h0)⟩]

/-- Witness for C8: aggregation mode `max` on a log whose step 1 holds the
kept reading `2` fails with the `InvalidArgument` error. -/
theorem C8_invalid_agg_witness :
    (("max" : String) ≠ "sum" ∧ ("max" : String) ≠ "mean" ∧
      keptRows none 1 [.stepHeader 1, .numRow 5 2] ≠ []) ∧
    parse_febio_log_by_step [.stepHeader 1, .numRow 5 2] none "max" =
      .error .invalidAgg :=
  ⟨⟨by decide, by decide, by decide⟩,
    C8_invalid_agg [.stepHeader 1, .numRow 5 2] none "max" (by decide) (by decide)
      ⟨1, by decide⟩⟩

/-- Counterexample for C8 as stated: with keep-set `[3]` no reading of the
log survives the filter, so the call with the unsupported mode `max` fails
with the no-data `ValueError`, not the `InvalidArgument` one. -/
theorem C8_invalid_agg_cex :
    parse_febio_log_by_step [.stepHeader 1, .numRow 5 2] (some [3]) "max" =
      .error .noData ∧
    parse_febio_log_by_step [.stepHeader 1, .numRow 5 2] (some [3]) "max" ≠
      .error .invalidAgg := by
  constructor
  · decide
  · decide

end Thrombus
